import Mathlib

/-!
Verification of the document annotation and versioning core of the
"Words of Plainness" editor (`src/lib/storage.js` and the `Editor`
component in the same module).

Text is modelled as `List Char`.  JavaScript string operations
(`split`, `indexOf`, `slice`, `substring`, `trim`, `…`) are embedded as
explicit functions on character lists; the stateful React component is
embedded as explicit state-passing functions; network calls are
parameters (oracles) supplied to the functions that issue them.
-/

set_option autoImplicit false

namespace WordsOfPlainness

/-! ## Basic JavaScript string primitives -/

/-- Whitespace test for the JavaScript regex class `\s` (the characters
that occur in the documents this editor handles). -/
def isWs (c : Char) : Bool :=
  c = ' ' || c = '\t' || c = '\n' || c = '\r' || c = '\x0b' || c = '\x0c'

/-- Embedding of `String.prototype.trim`: strip whitespace from both ends. -/
def jsTrim (s : List Char) : List Char :=
  ((s.dropWhile isWs).reverse.dropWhile isWs).reverse

/-- Counting helper for `split(/\s+/)`: number of maximal runs of
non-whitespace characters.  The boolean argument records whether the
previous character was part of such a run. -/
def countTokensGo : Bool → List Char → Nat
  | _, [] => 0
  | inTok, c :: rest =>
    if isWs c then countTokensGo false rest
    else (if inTok then 0 else 1) + countTokensGo true rest

/-- Number of maximal non-whitespace runs in a character list. -/
def countTokens (s : List Char) : Nat := countTokensGo false s

/-- Embedding of `para.trim().split(/\s+/).length` (the per-paragraph
word count of `prepareDocument`).  JavaScript `"".split(/\s+/)` returns
`[""]`, so an all-whitespace paragraph counts as 1. -/
def countWords (p : List Char) : Nat :=
  if jsTrim p = [] then 1 else countTokens (jsTrim p)

/-- Embedding of `content.trim().split(/\s+/).filter(w => w.length > 0).length`
(the word count stored with a version). -/
def wordCountJS (content : List Char) : Nat := countTokens (jsTrim content)

/-! ## Chunking Planner (`prepareDocument`, lines 343–365) -/

/-- Blank-line separator `"\n\n"`. -/
def nn : List Char := ['\n', '\n']

/-- Scanner state for `text.split(/\n\n+/)`: `norm` is inside a
paragraph, `nl1` has seen exactly one newline since the last
non-newline character, `sep` is inside a separator match (two or more
consecutive newlines, consumed greedily). -/
inductive SplitSt | norm | nl1 | sep
deriving DecidableEq

/-- Left-to-right scan implementing `text.split(/\n\n+/)`: a separator
is a maximal run of two or more newlines; a single newline stays inside
its paragraph.  `acc` is the current paragraph, reversed. -/
def splitRun : SplitSt → List Char → List Char → List (List Char)
  | .norm, acc, [] => [acc.reverse]
  | .nl1, acc, [] => [('\n' :: acc).reverse]
  | .sep, _, [] => [[]]
  | .norm, acc, c :: rest =>
      if c = '\n' then splitRun .nl1 acc rest
      else splitRun .norm (c :: acc) rest
  | .nl1, acc, c :: rest =>
      if c = '\n' then acc.reverse :: splitRun .sep [] rest
      else splitRun .norm (c :: '\n' :: acc) rest
  | .sep, acc, c :: rest =>
      if c = '\n' then splitRun .sep acc rest
      else splitRun .norm [c] rest

/-- Embedding of `text.split(/\n\n+/)`: the paragraph list of a document. -/
def splitParas (text : List Char) : List (List Char) := splitRun .norm [] text

/-- Chunk-building loop of `prepareDocument` (lines 352–365): groups
consecutive paragraphs while the accumulated word count stays within the
budget; a chunk is closed when adding the next paragraph would exceed
the budget and the current chunk is nonempty.  `cur` is `currentChunk`
(a list of paragraphs) and `cnt` is `currentWordCount`.  The result is
the list of paragraph groups, each later joined with `"\n\n"`. -/
def buildGroups (W : Nat) : List (List Char) → List (List Char) → Nat →
    List (List (List Char))
  | [], cur, _ => if cur.isEmpty then [] else [cur]
  | p :: rest, cur, cnt =>
    let pw := countWords p
    if cnt + pw > W && !cur.isEmpty then
      cur :: buildGroups W rest [p] pw
    else
      buildGroups W rest (cur ++ [p]) (cnt + pw)

/-- Paragraph groups of a document for word budget `W`. -/
def chunkGroups (W : Nat) (text : List Char) : List (List (List Char)) :=
  buildGroups W (splitParas text) [] 0

/-- Embedding of the `chunks` array of `prepareDocument`: each group of
paragraphs is joined with `currentChunk.join('\n\n')`. -/
def prepareChunks (W : Nat) (text : List Char) : List (List Char) :=
  (chunkGroups W text).map (List.intercalate nn)

/-- Source constant `MAX_WORDS_PER_CHUNK`. -/
def MAX_WORDS_PER_CHUNK : Nat := 1500

/-! ### Lemmas about the paragraph split -/

theorem splitRun_ne_nil (s : List Char) :
    ∀ (st : SplitSt) (acc : List Char), splitRun st acc s ≠ [] := by
  induction s with
  | nil => intro st acc; cases st <;> simp [splitRun]
  | cons c rest ih =>
    intro st acc
    cases st <;> simp only [splitRun] <;> split
    · exact ih _ _
    · exact ih _ _
    · simp
    · exact ih _ _
    · exact ih _ _
    · exact ih _ _

/-- Predicate: the document contains three consecutive newlines
somewhere (i.e. a paragraph separator wider than one blank line). -/
def hasTripleNl : List Char → Bool
  | '\n' :: '\n' :: '\n' :: _ => true
  | _ :: rest => hasTripleNl rest
  | [] => false

theorem hasTripleNl_cons {c : Char} {rest : List Char}
    (h : hasTripleNl (c :: rest) = false) : hasTripleNl rest = false := by
  rw [hasTripleNl.eq_def] at h
  split at h
  · exact absurd h (by simp)
  · rename_i heq
    cases heq
    exact h
  · simp_all

theorem intercalate_cons_of_ne_nil {α : Type} (sep x : List α)
    {xs : List (List α)} (h : xs ≠ []) :
    List.intercalate sep (x :: xs) = x ++ sep ++ List.intercalate sep xs := by
  cases xs with
  | nil => exact absurd rfl h
  | cons y ys =>
    simp only [List.intercalate, List.intersperse]
    simp [List.append_assoc]

theorem splitRun_intercalate (s : List Char) :
    (∀ acc, hasTripleNl s = false →
      List.intercalate nn (splitRun .norm acc s) = acc.reverse ++ s)
    ∧ (∀ acc, hasTripleNl ('\n' :: s) = false →
      List.intercalate nn (splitRun .nl1 acc s) = acc.reverse ++ '\n' :: s)
    ∧ (∀ acc, hasTripleNl ('\n' :: '\n' :: s) = false →
      List.intercalate nn (splitRun .sep acc s) = s) := by
  induction s with
  | nil =>
    refine ⟨?_, ?_, ?_⟩ <;> intro acc h <;> simp [splitRun, List.intercalate]
  | cons c rest ih =>
    obtain ⟨ihn, ih1, ihs⟩ := ih
    refine ⟨?_, ?_, ?_⟩ <;> intro acc h
    · by_cases hc : c = '\n'
      · subst hc
        simp only [splitRun, if_true]
        rw [ih1 acc h]
      · simp only [splitRun, if_neg hc]
        rw [ihn (c :: acc) (hasTripleNl_cons h)]
        simp
    · by_cases hc : c = '\n'
      · subst hc
        simp only [splitRun, if_true]
        rw [intercalate_cons_of_ne_nil nn _ (splitRun_ne_nil rest _ _)]
        rw [ihs [] h]
        simp [nn]
      · simp only [splitRun, if_neg hc]
        rw [ihn (c :: '\n' :: acc) (hasTripleNl_cons (hasTripleNl_cons h))]
        simp
    · by_cases hc : c = '\n'
      · subst hc
        exact absurd h (by simp [hasTripleNl])
      · simp only [splitRun, if_neg hc]
        rw [ihn [c] (hasTripleNl_cons (hasTripleNl_cons (hasTripleNl_cons h)))]
        simp

/-- Round trip of the paragraph split, for documents whose blank-line
separators are all exactly one blank line. -/
theorem splitParas_intercalate (d : List Char) (h : hasTripleNl d = false) :
    List.intercalate nn (splitParas d) = d := by
  simpa using (splitRun_intercalate d).1 [] h

/-! ### Lemmas about the chunk-building loop -/

theorem buildGroups_flatten (W : Nat) (paras cur : List (List Char))
    (cnt : Nat) :
    (buildGroups W paras cur cnt).flatten = cur ++ paras := by
  induction paras generalizing cur cnt with
  | nil =>
    by_cases h : cur = []
    · simp [buildGroups, h]
    · simp [buildGroups, List.isEmpty_iff, h]
  | cons p rest ih =>
    rw [buildGroups]
    split
    · simp [ih]
    · simp [ih]

theorem buildGroups_ne_nil (W : Nat) (paras cur : List (List Char))
    (cnt : Nat) :
    ∀ g ∈ buildGroups W paras cur cnt, g ≠ [] := by
  induction paras generalizing cur cnt with
  | nil =>
    intro g hg
    rw [buildGroups] at hg
    split at hg
    · simp at hg
    · rename_i h
      simp only [List.mem_singleton] at hg
      subst hg
      simpa [List.isEmpty_iff] using h
  | cons p rest ih =>
    intro g hg
    rw [buildGroups] at hg
    split at hg
    · rename_i h
      rcases List.mem_cons.mp hg with h1 | h1
      · subst h1
        have := (Bool.and_eq_true _ _).mp h
        simpa [List.isEmpty_iff] using this.2
      · exact ih _ _ _ h1
    · exact ih _ _ _ hg

/-! ### Joining chunks is joining paragraphs -/

theorem intercalate_singleton {α : Type} (sep x : List α) :
    List.intercalate sep [x] = x := by
  simp [List.intercalate, List.intersperse]

theorem flatten_ne_nil {α : Type} {l : List (List α)} (h0 : l ≠ [])
    (h1 : ∀ g ∈ l, g ≠ []) : l.flatten ≠ [] := by
  cases l with
  | nil => exact absurd rfl h0
  | cons g rest =>
    have hg : g ≠ [] := h1 g (List.mem_cons_self _ _)
    simp only [List.flatten_cons]
    intro hcontra
    exact hg (List.append_eq_nil.mp hcontra).1

theorem intercalate_append_ne {α : Type} (sep : List α)
    (l1 l2 : List (List α)) (h1 : l1 ≠ []) (h2 : l2 ≠ []) :
    List.intercalate sep (l1 ++ l2) =
      List.intercalate sep l1 ++ sep ++ List.intercalate sep l2 := by
  induction l1 with
  | nil => exact absurd rfl h1
  | cons x l1' ih =>
    cases l1' with
    | nil =>
      simp only [List.cons_append, List.nil_append]
      rw [intercalate_cons_of_ne_nil sep x h2, intercalate_singleton]
    | cons y l1'' =>
      rw [List.cons_append,
        intercalate_cons_of_ne_nil sep x (by simp),
        intercalate_cons_of_ne_nil sep x (by simp),
        ih (by simp)]
      simp [List.append_assoc]

theorem intercalate_map_flatten (sep : List Char)
    (groups : List (List (List Char))) (h : ∀ g ∈ groups, g ≠ []) :
    List.intercalate sep (groups.map (List.intercalate sep)) =
      List.intercalate sep groups.flatten := by
  induction groups with
  | nil => rfl
  | cons g rest ih =>
    by_cases hr : rest = []
    · subst hr
      simp [intercalate_singleton]
    · have hmem : ∀ g ∈ rest, g ≠ [] :=
        fun g hg => h g (List.mem_cons_of_mem _ hg)
      have hg : g ≠ [] := h g (List.mem_cons_self _ _)
      rw [List.map_cons,
        intercalate_cons_of_ne_nil sep _ (by simpa using hr),
        ih hmem, List.flatten_cons,
        intercalate_append_ne sep g rest.flatten hg
          (flatten_ne_nil hr hmem)]

/-! ## Claim C3 and C9 -/

/-- C3 claims the blank-line join of the Chunking Planner segments
reconstructs every document exactly; it fails on a document whose
paragraph separator is a run of three newlines, which `split(/\n\n+/)`
collapses to a single blank line. -/
theorem c3_counterexample :
    List.intercalate nn
        (prepareChunks MAX_WORDS_PER_CHUNK ['a', '\n', '\n', '\n', 'b'])
      ≠ ['a', '\n', '\n', '\n', 'b'] := by
  decide

/-- C3 (amended): for every word budget `W` and every document `d` with
no run of three or more consecutive newlines (every paragraph separator
is exactly one blank line), concatenating the Chunking Planner segments
with a blank-line separator, in original order, reconstructs `d`
exactly. -/
theorem c3_amended_roundtrip (W : Nat) (d : List Char)
    (h : hasTripleNl d = false) :
    List.intercalate nn (prepareChunks W d) = d := by
  unfold prepareChunks chunkGroups
  rw [intercalate_map_flatten nn _ (buildGroups_ne_nil W (splitParas d) [] 0)]
  rw [buildGroups_flatten W (splitParas d) [] 0, List.nil_append]
  exact splitParas_intercalate d h

theorem c3_amended_witness :
    hasTripleNl ['a', '\n', '\n', 'b'] = false
    ∧ List.intercalate nn (prepareChunks 1 ['a', '\n', '\n', 'b'])
        = ['a', '\n', '\n', 'b'] :=
  ⟨by decide, c3_amended_roundtrip 1 ['a', '\n', '\n', 'b'] (by decide)⟩

/-- C9: for every document `d` and word budget `W` the Chunking Planner
never splits a paragraph: the chunk groups form a partition of the
paragraph list of `d` into consecutive nonempty groups, and each segment
is the blank-line join of exactly one group — so each paragraph lies
whole inside exactly one segment, even when it alone exceeds `W`. -/
theorem c9_no_paragraph_split (W : Nat) (d : List Char) :
    (chunkGroups W d).flatten = splitParas d
    ∧ (∀ g ∈ chunkGroups W d, g ≠ [])
    ∧ prepareChunks W d = (chunkGroups W d).map (List.intercalate nn) := by
  refine ⟨?_, ?_, rfl⟩
  · simpa using buildGroups_flatten W (splitParas d) [] 0
  · exact buildGroups_ne_nil W (splitParas d) [] 0

theorem c9_witness :
    (chunkGroups 1 ['a', '\n', '\n', 'b']).flatten
        = splitParas ['a', '\n', '\n', 'b']
    ∧ ([['a']] : List (List Char)) ≠ [] :=
  ⟨(c9_no_paragraph_split 1 ['a', '\n', '\n', 'b']).1,
   (c9_no_paragraph_split 1 ['a', '\n', '\n', 'b']).2.1 [['a']] (by decide)⟩

/-! ## Annotation Engine (`analyzeContent`, lines 573–672) -/

/-- Embedding of `String.prototype.indexOf` for substring search:
index of the first occurrence of `pat` in `s`, `none` when absent
(JavaScript returns `-1`). -/
def indexOfSub (s pat : List Char) : Option Nat :=
  if pat.isPrefixOf s then some 0
  else
    match s with
    | [] => none
    | _ :: rest => (indexOfSub rest pat).map (· + 1)

/-- Embedding of `String.prototype.slice` for the in-bounds, ordered
offsets this code produces. -/
def jsSlice (s : List Char) (a b : Nat) : List Char :=
  (s.drop a).take (b - a)

/-- Embedding of `String.prototype.substring`, which swaps its
arguments when `a > b`. -/
def jsSubstring (s : List Char) (a b : Nat) : List Char :=
  if a ≤ b then (s.drop a).take (b - a) else (s.drop b).take (a - b)

/-- One element of the JSON array the model is asked to return
(fields `original`, `suggestion`, `reason`, `mode`). -/
structure RawSuggestion where
  original : List Char
  suggestion : List Char
  reason : List Char
  mode : List Char
deriving DecidableEq

/-- Anchored suggestion as produced by `analyzeContent` (lines 641–649).
The JavaScript field `end` is a Lean keyword and is embedded as
`endOffset`. -/
structure Suggestion where
  id : Nat
  original : List Char
  suggestion : List Char
  reason : List Char
  mode : List Char
  start : Nat
  endOffset : Nat
deriving DecidableEq

/-- Body of `parsedSuggestions.map((s, idx) => …)` (lines 638–650):
anchor one parsed element at the first occurrence of its `original`
text, or `none` (JavaScript `null`) when it does not occur. -/
def processOne (content : List Char) (idx : Nat) (r : RawSuggestion) :
    Option Suggestion :=
  match indexOfSub content r.original with
  | none => none
  | some start =>
      some { id := idx + 1, original := r.original,
             suggestion := r.suggestion, reason := r.reason, mode := r.mode,
             start := start, endOffset := start + r.original.length }

/-- The `.map((s, idx) => …).filter(s => s !== null)` pipeline of
`analyzeContent` (lines 637–651), fused into one pass that carries the
running array index `idx`. -/
def processFrom (content : List Char) (idx : Nat) :
    List RawSuggestion → List Suggestion
  | [] => []
  | r :: rest =>
    match processOne content idx r with
    | none => processFrom content (idx + 1) rest
    | some s => s :: processFrom content (idx + 1) rest

/-- The `processedSuggestions` value of `analyzeContent`. -/
def processSuggestions (content : List Char) (parsed : List RawSuggestion) :
    List Suggestion :=
  processFrom content 0 parsed

/-! ### Lemmas about anchoring -/

theorem indexOfSub_isPrefixOf {s pat : List Char} {i : Nat}
    (h : indexOfSub s pat = some i) : pat.isPrefixOf (s.drop i) = true := by
  induction s generalizing i with
  | nil =>
    rw [indexOfSub] at h
    split at h
    · rename_i hp
      cases h
      exact hp
    · simp at h
  | cons c rest ih =>
    rw [indexOfSub] at h
    split at h
    · rename_i hp
      cases h
      exact hp
    · rcases Option.map_eq_some'.mp h with ⟨j, hj, rfl⟩
      simpa using ih hj

theorem jsSlice_of_indexOfSub {s pat : List Char} {i : Nat}
    (h : indexOfSub s pat = some i) :
    jsSlice s i (i + pat.length) = pat := by
  have hp := List.isPrefixOf_iff_prefix.mp (indexOfSub_isPrefixOf h)
  unfold jsSlice
  rw [Nat.add_sub_cancel_left]
  exact (List.prefix_iff_eq_take.mp hp).symm

theorem processFrom_length_le (content : List Char) (idx : Nat)
    (l : List RawSuggestion) :
    (processFrom content idx l).length ≤ l.length := by
  induction l generalizing idx with
  | nil => simp [processFrom]
  | cons r rest ih =>
    rw [processFrom]
    split
    · exact Nat.le_succ_of_le (ih _)
    · simpa using ih _

theorem processFrom_mem (content : List Char) (idx : Nat)
    (l : List RawSuggestion) :
    ∀ s ∈ processFrom content idx l,
      idx + 1 ≤ s.id ∧ s.id ≤ idx + l.length
      ∧ indexOfSub content s.original = some s.start
      ∧ s.endOffset = s.start + s.original.length
      ∧ l[s.id - 1 - idx]? =
          some { original := s.original, suggestion := s.suggestion,
                 reason := s.reason, mode := s.mode } := by
  induction l generalizing idx with
  | nil => simp [processFrom]
  | cons r rest ih =>
    intro s hs
    rw [processFrom] at hs
    split at hs
    · have h := ih (idx + 1) s hs
      refine ⟨by omega, by simp only [List.length_cons]; omega, h.2.2.1,
        h.2.2.2.1, ?_⟩
      have h1 : idx + 1 + 1 ≤ s.id := h.1
      have h2 : s.id - 1 - idx = (s.id - 1 - (idx + 1)) + 1 := by omega
      rw [h2]
      simpa using h.2.2.2.2
    · rename_i s0 heq
      rcases List.mem_cons.mp hs with rfl | hmem
      · unfold processOne at heq
        split at heq
        · simp at heq
        · rename_i start hstart
          cases heq
          refine ⟨Nat.le_refl _, ?_, hstart, rfl, ?_⟩
          · show idx + 1 ≤ idx + (rest.length + 1)
            omega
          · show (r :: rest)[idx + 1 - 1 - idx]? = some _
            have h0 : idx + 1 - 1 - idx = 0 := by omega
            rw [h0]
            simp
      · have h := ih (idx + 1) s hmem
        refine ⟨by omega, by simp only [List.length_cons]; omega, h.2.2.1,
          h.2.2.2.1, ?_⟩
        have h2 : s.id - 1 - idx = (s.id - 1 - (idx + 1)) + 1 := by omega
        rw [h2]
        simpa using h.2.2.2.2

theorem processOne_some {content : List Char} {idx : Nat}
    {r : RawSuggestion} {s : Suggestion}
    (h : processOne content idx r = some s) :
    s.id = idx + 1 := by
  unfold processOne at h
  split at h
  · simp at h
  · cases h
    rfl

theorem processOne_none {content : List Char} {idx : Nat}
    {r : RawSuggestion} (h : processOne content idx r = none) :
    indexOfSub content r.original = none := by
  unfold processOne at h
  split at h
  · assumption
  · simp at h

theorem processFrom_chain (content : List Char) (idx : Nat)
    (l : List RawSuggestion) :
    ((processFrom content idx l).map Suggestion.id).Chain' (· < ·) := by
  induction l generalizing idx with
  | nil => simp [processFrom]
  | cons r rest ih =>
    rw [processFrom]
    split
    · exact ih _
    · rename_i s heq
      rw [List.map_cons]
      refine List.Chain'.cons' (ih _) ?_
      intro y hy
      have hmem := List.mem_of_mem_head? hy
      rcases List.mem_map.mp hmem with ⟨t, ht, rfl⟩
      have h1 := (processFrom_mem content (idx + 1) rest t ht).1
      rw [processOne_some heq]
      omega

theorem processFrom_complete (content : List Char) (idx : Nat)
    (l : List RawSuggestion)
    (h : ∀ r ∈ l, indexOfSub content r.original ≠ none) :
    (processFrom content idx l).map Suggestion.id
      = (List.range l.length).map (· + (idx + 1)) := by
  induction l generalizing idx with
  | nil => simp [processFrom]
  | cons r rest ih =>
    rw [processFrom]
    split
    · rename_i heq
      exact absurd (processOne_none heq) (h r (List.mem_cons_self _ _))
    · rename_i s heq
      rw [List.map_cons, List.length_cons, List.range_succ_eq_map,
        List.map_cons,
        ih (idx + 1) (fun r hr => h r (List.mem_cons_of_mem _ hr)),
        List.map_map]
      refine congrArg₂ _ ?_ (List.map_congr_left ?_)
      · rw [processOne_some heq]
        omega
      · intro n _
        simp [Nat.succ_eq_add_one]
        omega

/-! ## Suggestion Set mutation (`acceptSuggestion`, lines 674–685) -/

/-- Live editor state relevant to the Suggestion Set: the `content` and
`suggestions` React state variables. -/
structure EditorState where
  content : List Char
  suggestions : List Suggestion
deriving DecidableEq

/-- Embedding of `acceptSuggestion` (lines 674–685): splice the
replacement into the content
(`content.substring(0, start) + suggestion + content.substring(end)`)
and remove the accepted suggestion from the set
(`prev.filter(s => s.id !== suggestion.id)`).  The offsets of the
remaining suggestions are not modified. -/
def acceptSuggestion (st : EditorState) (s : Suggestion) : EditorState :=
  { content := st.content.take s.start ++ s.suggestion
        ++ st.content.drop s.endOffset,
    suggestions := st.suggestions.filter (fun t => t.id != s.id) }

/-! ## Claim C5 -/

/-- The scenario document `"A foo B foo C"` (two occurrences of
`"foo"`). -/
def fooDoc : List Char := "A foo B foo C".toList

/-- The single parsed element of the scenario model response. -/
def fooRaw : RawSuggestion :=
  { original := "foo".toList, suggestion := "bar".toList,
    reason := "x".toList, mode := "clarity".toList }

/-- The suggestion the scenario is expected to produce: anchored at the
first `"foo"`, offsets 2–5. -/
def fooSugg : Suggestion :=
  { id := 1, original := "foo".toList, suggestion := "bar".toList,
    reason := "x".toList, mode := "clarity".toList,
    start := 2, endOffset := 5 }

/-- C5: for every parseable model response, `analyze` returns at most as
many suggestions as the parsed array has elements; every returned
suggestion satisfies `document.slice(start, end) = original` and is
anchored at the first occurrence of its original text (an element whose
original does not occur is dropped silently); for document
`"A foo B foo C"` and one `"foo"` suggestion, exactly one suggestion
anchored at offsets 2–5 is returned, and accepting it yields
`"A bar B foo C"`. -/
theorem c5_analyze_anchoring :
    (∀ (content : List Char) (parsed : List RawSuggestion),
        (processSuggestions content parsed).length ≤ parsed.length)
    ∧ (∀ (content : List Char) (parsed : List RawSuggestion),
        ∀ s ∈ processSuggestions content parsed,
          jsSlice content s.start s.endOffset = s.original
          ∧ indexOfSub content s.original = some s.start)
    ∧ processSuggestions fooDoc [fooRaw] = [fooSugg]
    ∧ (acceptSuggestion { content := fooDoc, suggestions := [fooSugg] }
        fooSugg).content = "A bar B foo C".toList := by
  refine ⟨?_, ?_, by decide, by decide⟩
  · intro c parsed
    exact processFrom_length_le c 0 parsed
  · intro c parsed s hs
    have h := processFrom_mem c 0 parsed s hs
    refine ⟨?_, h.2.2.1⟩
    rw [h.2.2.2.1]
    exact jsSlice_of_indexOfSub h.2.2.1

theorem c5_witness :
    jsSlice fooDoc fooSugg.start fooSugg.endOffset = fooSugg.original
    ∧ indexOfSub fooDoc fooSugg.original = some fooSugg.start :=
  c5_analyze_anchoring.2.1 fooDoc [fooRaw] fooSugg (by decide)

/-! ## Claim C4 -/

/-- Document for the C4 counterexample. -/
def c4Doc : List Char := "B".toList

/-- Parsed model array for the C4 counterexample: the first element's
original text does not occur in the document and is dropped. -/
def c4Raws : List RawSuggestion :=
  [ { original := "A".toList, suggestion := "x".toList,
      reason := [], mode := [] },
    { original := "B".toList, suggestion := "y".toList,
      reason := [], mode := [] } ]

/-- The one suggestion returned on the C4 counterexample input. -/
def c4Sugg : Suggestion :=
  { id := 2, original := "B".toList, suggestion := "y".toList,
    reason := [], mode := [], start := 0, endOffset := 1 }

/-- C4 claims the n-th returned suggestion carries id n; ids are in fact
assigned from the position in the model's array before unanchorable
elements are dropped, so after a drop the first returned suggestion
carries id 2, not 1. -/
theorem c4_counterexample :
    (processSuggestions c4Doc c4Raws).length = 1
    ∧ (processSuggestions c4Doc c4Raws).map Suggestion.id ≠ [1] := by
  decide

/-- C4 (amended): on every successful analyze call the returned
suggestions appear in the order the model returned them, each carrying
id = 1 + its index in the model's array (so ids are strictly increasing
and lie in `[1, n]`, but skip the positions of dropped elements), each
anchored with `startOffset = indexOf(original)` and
`endOffset = startOffset + len(original)`; when no element is dropped
the n-th returned suggestion has id n. -/
theorem c4_amended_sequential_ids (content : List Char)
    (parsed : List RawSuggestion) :
    ((processSuggestions content parsed).map Suggestion.id).Chain' (· < ·)
    ∧ (∀ s ∈ processSuggestions content parsed,
        1 ≤ s.id ∧ s.id ≤ parsed.length
        ∧ parsed[s.id - 1]? =
            some { original := s.original, suggestion := s.suggestion,
                   reason := s.reason, mode := s.mode }
        ∧ indexOfSub content s.original = some s.start
        ∧ s.endOffset = s.start + s.original.length)
    ∧ ((∀ r ∈ parsed, indexOfSub content r.original ≠ none) →
        (processSuggestions content parsed).map Suggestion.id
          = (List.range parsed.length).map (· + 1)) := by
  refine ⟨processFrom_chain content 0 parsed, ?_, ?_⟩
  · intro s hs
    have h := processFrom_mem content 0 parsed s hs
    exact ⟨h.1, by simpa using h.2.1, by simpa using h.2.2.2.2,
      h.2.2.1, h.2.2.2.1⟩
  · intro h
    exact processFrom_complete content 0 parsed h

/-- Parsed array with every element anchorable, for the completeness
half of the C4 witness. -/
def c4RawB : RawSuggestion :=
  { original := "B".toList, suggestion := "y".toList,
    reason := [], mode := [] }

theorem c4_amended_witness :
    (1 ≤ c4Sugg.id ∧ c4Sugg.id ≤ c4Raws.length
      ∧ c4Raws[c4Sugg.id - 1]? =
          some { original := c4Sugg.original,
                 suggestion := c4Sugg.suggestion,
                 reason := c4Sugg.reason, mode := c4Sugg.mode }
      ∧ indexOfSub c4Doc c4Sugg.original = some c4Sugg.start
      ∧ c4Sugg.endOffset = c4Sugg.start + c4Sugg.original.length)
    ∧ (processSuggestions c4Doc [c4RawB]).map Suggestion.id
        = (List.range 1).map (· + 1) :=
  ⟨(c4_amended_sequential_ids c4Doc c4Raws).2.1 c4Sugg (by decide),
   (c4_amended_sequential_ids c4Doc [c4RawB]).2.2 (by decide)⟩

/-! ## Claim C1 -/

/-- Accepted suggestion for the C1 failing input: replaces `"ab"`
(offsets 0–2) by `"abc"`, a length delta of `+1`. -/
def c1S : Suggestion :=
  { id := 1, original := "ab".toList, suggestion := "abc".toList,
    reason := [], mode := [], start := 0, endOffset := 2 }

/-- Pending suggestion after the edited region (`start 3 > end 2`). -/
def c1T : Suggestion :=
  { id := 2, original := "cd".toList, suggestion := "x".toList,
    reason := [], mode := [], start := 3, endOffset := 5 }

/-- Editor state for the C1 failing input: document `"ab cd"` with the
two pending suggestions. -/
def c1State : EditorState :=
  { content := "ab cd".toList, suggestions := [c1S, c1T] }

/-- C1: the specification requires every pending suggestion after the
edited region to have its offsets shifted by the length delta on
accept.  `acceptSuggestion` removes the accepted suggestion and leaves
every remaining offset unchanged: after accepting `c1S` the remaining
suggestion still starts at 3 instead of the required 4, and its stored
range no longer covers its original text. -/
theorem c1_accept_does_not_shift :
    (acceptSuggestion c1State c1S).content = "abc cd".toList
    ∧ (acceptSuggestion c1State c1S).suggestions = [c1T]
    ∧ c1T.start = 3
    ∧ c1T.start + (c1S.suggestion.length - c1S.original.length) = 4
    ∧ jsSlice (acceptSuggestion c1State c1S).content c1T.start c1T.endOffset
        ≠ c1T.original
    ∧ jsSlice (acceptSuggestion c1State c1S).content 4 6 = c1T.original := by
  decide

/-! ## Annotation Engine error path (`analyzeContent`, lines 608–634) -/

/-- Embedding of `response.indexOf('[')` (JavaScript `-1` is `none`). -/
def indexOfChar (s : List Char) (c : Char) : Option Nat :=
  s.findIdx? (· == c)

/-- Embedding of `response.lastIndexOf(']')`: index of the last
occurrence, found by searching the reversal. -/
def lastIndexOfChar (s : List Char) (c : Char) : Option Nat :=
  (s.reverse.findIdx? (· == c)).map (fun i => s.length - 1 - i)

/-- Embedding of `jsonString.replace(/[\x00-\x1F\x7F]/g, ' ')`
(line 626). -/
def cleanControl (s : List Char) : List Char :=
  s.map (fun c => if c.toNat ≤ 0x1F ∨ c.toNat = 0x7F then ' ' else c)

/-- Embedding of `text.substring(0, 300).replace(/\n/g, ' ')`
(lines 619 and 632): the bounded preview attached to an error. -/
def previewOf (s : List Char) : List Char :=
  (s.take 300).map (fun c => if c = '\n' then ' ' else c)

/-- Failure modes of `analyzeContent`: no JSON array located
(lines 618–621) or `JSON.parse` rejected the extracted text
(lines 629–634), each carrying its bounded preview. -/
inductive AnalyzeError where
  | malformed (preview : List Char)
  | parseFailed (preview : List Char)
deriving DecidableEq

/-- Embedding of the response handling of `analyzeContent`
(lines 579–653).  On entry the pending suggestions are cleared
(`setSuggestions([])`, line 581).  The JSON array is located by the
first `[` and the last `]`; control characters are blanked; `JSON.parse`
is the oracle `parseJson`; parsed elements are anchored by
`processSuggestions`.  Errors leave the state produced so far (content
untouched, suggestions cleared). -/
def analyzeContent (st : EditorState) (response : List Char)
    (parseJson : List Char → Option (List RawSuggestion)) :
    EditorState × Option AnalyzeError :=
  let st1 : EditorState := { st with suggestions := [] }
  match indexOfChar response '[', lastIndexOfChar response ']' with
  | some i, some j =>
    let jsonString := cleanControl (jsSubstring response i (j + 1))
    match parseJson jsonString with
    | none => (st1, some (AnalyzeError.parseFailed (previewOf jsonString)))
    | some parsed =>
        ({ st1 with suggestions := processSuggestions st1.content parsed },
         none)
  | _, _ => (st1, some (AnalyzeError.malformed (previewOf response)))

/-! ## Claim C2 -/

/-- State before the C2 counterexample analyze call: one pending
suggestion exists. -/
def c2State : EditorState :=
  { content := "d".toList,
    suggestions := [{ id := 1, original := "d".toList,
                      suggestion := "x".toList, reason := [], mode := [],
                      start := 0, endOffset := 1 }] }

/-- C2 claims a malformed response leaves the prior Suggestion Set
unchanged; in fact `analyzeContent` clears the suggestions at entry, so
after the failed call the previously nonempty set is empty. -/
theorem c2_counterexample :
    (analyzeContent c2State "hi".toList (fun _ => none)).2
        = some (AnalyzeError.malformed "hi".toList)
    ∧ (analyzeContent c2State "hi".toList (fun _ => none)).1.content
        = c2State.content
    ∧ (analyzeContent c2State "hi".toList (fun _ => none)).1.suggestions = []
    ∧ c2State.suggestions ≠ [] := by
  decide

/-- C2 (amended): for every model response containing no `[` or no `]`,
analyze fails with `MalformedResponse` carrying a bounded (at most
300-character) preview of the offending text and the document is left
unchanged; the previously existing Suggestion Set, however, is cleared
at the start of the operation rather than left unchanged. -/
theorem c2_amended_malformed (st : EditorState) (response : List Char)
    (parseJson : List Char → Option (List RawSuggestion))
    (h : indexOfChar response '[' = none
      ∨ lastIndexOfChar response ']' = none) :
    (analyzeContent st response parseJson).2
        = some (AnalyzeError.malformed (previewOf response))
    ∧ (analyzeContent st response parseJson).1.content = st.content
    ∧ (analyzeContent st response parseJson).1.suggestions = []
    ∧ (previewOf response).length ≤ 300 := by
  have hb : (previewOf response).length ≤ 300 := by
    simp only [previewOf, List.length_map, List.length_take]
    omega
  rcases h with h | h
  · simp [analyzeContent, h, hb]
  · cases hfirst : indexOfChar response '[' with
    | none => simp [analyzeContent, hfirst, hb]
    | some i => simp [analyzeContent, hfirst, h, hb]

theorem c2_amended_witness :
    (analyzeContent c2State "oops".toList (fun _ => none)).2
        = some (AnalyzeError.malformed (previewOf "oops".toList))
    ∧ (analyzeContent c2State "oops".toList (fun _ => none)).1.content
        = c2State.content
    ∧ (analyzeContent c2State "oops".toList (fun _ => none)).1.suggestions
        = []
    ∧ (previewOf "oops".toList).length ≤ 300 :=
  c2_amended_malformed c2State "oops".toList (fun _ => none)
    (Or.inl (by decide))

/-! ## Rendering (`renderContentWithHighlights`, lines 890–939) -/

/-- One display span pushed into `result`: plain text or a highlighted
suggestion range. -/
inductive Segment where
  | text (s : List Char)
  | highlight (id : Nat) (s : List Char)
deriving DecidableEq

/-- Stable insertion into a list sorted ascending by `start`: an element
is placed before the first element whose `start` is not smaller, so
original order is kept among equal keys. -/
def insertByStart (s : Suggestion) : List Suggestion → List Suggestion
  | [] => [s]
  | t :: rest =>
    if t.start < s.start then t :: insertByStart s rest else s :: t :: rest

/-- Embedding of `[...suggestions].sort((a, b) => a.start - b.start)`
(line 896), a stable ascending sort by `start`. -/
def sortByStart (l : List Suggestion) : List Suggestion :=
  l.foldr insertByStart []

/-- Loop of `renderContentWithHighlights` (lines 898–936): for each
suggestion in sorted order, push a text span for the gap before it when
`suggestion.start > lastIndex`, then always push a highlight span for
its range and advance `lastIndex` to `suggestion.end`; finally push the
trailing text when `lastIndex < content.length`. -/
def renderLoop (content : List Char) : Nat → List Suggestion → List Segment
  | lastIndex, [] =>
      if lastIndex < content.length then
        [Segment.text (content.drop lastIndex)]
      else []
  | lastIndex, s :: rest =>
      (if s.start > lastIndex then
        [Segment.text (jsSubstring content lastIndex s.start)]
      else [])
      ++ (Segment.highlight s.id (jsSubstring content s.start s.endOffset)
          :: renderLoop content s.endOffset rest)

/-- Embedding of `renderContentWithHighlights` (lines 890–939); with no
suggestions the component shows the content as one unhighlighted
span. -/
def renderContentWithHighlights (content : List Char)
    (suggestions : List Suggestion) : List Segment :=
  if suggestions.length = 0 then [Segment.text content]
  else renderLoop content 0 (sortByStart suggestions)

/-! ## Claim C6 -/

/-- First overlapping suggestion for the C6 failing input: covers
`"ab"` (offsets 0–2). -/
def c6A : Suggestion :=
  { id := 1, original := "ab".toList, suggestion := "X".toList,
    reason := [], mode := [], start := 0, endOffset := 2 }

/-- Second overlapping suggestion for the C6 failing input: covers
`"b"` (offsets 1–2), inside the range of the first. -/
def c6B : Suggestion :=
  { id := 2, original := "b".toList, suggestion := "Y".toList,
    reason := [], mode := [], start := 1, endOffset := 2 }

/-- C6: the claim says of two overlapping suggestions only the
earliest-starting one is displayed as a highlight.  The rendering loop
sorts by start but never skips an overlapping suggestion: on document
`"ab"` with overlapping suggestions at 0–2 and 1–2, both are emitted as
highlight spans (and the overlapped text `"b"` is displayed twice). -/
theorem c6_render_overlap :
    c6B.start < c6A.endOffset
    ∧ c6A.start ≤ c6B.start
    ∧ renderContentWithHighlights "ab".toList [c6B, c6A]
        = [Segment.highlight 1 "ab".toList, Segment.highlight 2 "b".toList]
    := by
  decide

/-! ## Version Ledger (`versioning`, lines 156–211) -/

/-- Source constant `MAX_VERSIONS`. -/
def MAX_VERSIONS : Nat := 5

/-- A stored version (lines 164–170).  `id = Date.now()` and the ISO
`timestamp` string are both represented by the abstract clock value
passed as `now`. -/
structure Version where
  id : Nat
  content : List Char
  label : List Char
  timestamp : Nat
  wordCount : Nat
deriving DecidableEq

/-- Embedding of ``label || `Version ${versions.length + 1}` ``
(line 167). -/
def versionLabel (label : List Char) (count : Nat) : List Char :=
  if label = [] then ("Version " ++ Nat.repr (count + 1)).toList else label

/-- The `newVersion` object built by `saveVersion` (lines 164–170). -/
def mkNewVersion (now : Nat) (content label : List Char)
    (versions : List Version) : Version :=
  { id := now, content := content,
    label := versionLabel label versions.length,
    timestamp := now,
    wordCount := wordCountJS content }

/-- Embedding of `while (versions.length > MAX_VERSIONS) versions.pop()`
(lines 175–177).  The fuel is the list length, which bounds the number
of iterations since every pop shortens the list by one. -/
def popOldest : Nat → List Version → List Version
  | 0, l => l
  | fuel + 1, l =>
    if l.length > MAX_VERSIONS then popOldest fuel l.dropLast else l

/-- The eviction loop of `saveVersion` run to completion. -/
def trimVersions (l : List Version) : List Version := popOldest l.length l

/-- Embedding of `versioning.saveVersion` (lines 161–185): build the new
version, prepend it (`unshift`), pop from the end while over the bound,
and return the stored list together with the new version. -/
def saveVersion (now : Nat) (versions : List Version)
    (content label : List Char) : List Version × Version :=
  let v := mkNewVersion now content label versions
  (trimVersions (v :: versions), v)

theorem popOldest_take (fuel : Nat) :
    ∀ l : List Version, l.length ≤ fuel + MAX_VERSIONS →
      popOldest fuel l = l.take MAX_VERSIONS := by
  induction fuel with
  | zero =>
    intro l h
    rw [popOldest, List.take_of_length_le (by omega)]
  | succ fuel ih =>
    intro l h
    rw [popOldest]
    by_cases hlen : l.length > MAX_VERSIONS
    · rw [if_pos hlen, ih l.dropLast (by rw [List.length_dropLast]; omega),
        List.dropLast_eq_take, List.take_take]
      congr 1
      simp only [MAX_VERSIONS] at *
      omega
    · rw [if_neg hlen, List.take_of_length_le (by omega)]

theorem trimVersions_take (l : List Version) :
    trimVersions l = l.take MAX_VERSIONS :=
  popOldest_take l.length l (by omega)

/-! ## Claim C7 -/

/-- C7: after any `saveVersion` the stored ledger is exactly the first
five elements of the new version prepended to the previous list — so it
never exceeds 5 versions, insertion always places the new version
first, saving with fewer than 5 held evicts nothing, and saving with 5
already held evicts exactly the oldest (the last of the newest-first
list). -/
theorem c7_version_ledger_bound (now : Nat) (versions : List Version)
    (content label : List Char) :
    (saveVersion now versions content label).1
        = ((saveVersion now versions content label).2 :: versions).take
            MAX_VERSIONS
    ∧ (saveVersion now versions content label).1.length ≤ MAX_VERSIONS
    ∧ (saveVersion now versions content label).1.head?
        = some (saveVersion now versions content label).2
    ∧ (versions.length < MAX_VERSIONS →
        (saveVersion now versions content label).1
          = (saveVersion now versions content label).2 :: versions)
    ∧ (versions.length = MAX_VERSIONS →
        (saveVersion now versions content label).1
          = (saveVersion now versions content label).2
              :: versions.dropLast) := by
  have ht : (saveVersion now versions content label).1
      = (mkNewVersion now content label versions :: versions).take
          MAX_VERSIONS :=
    trimVersions_take _
  refine ⟨ht, ?_, ?_, ?_, ?_⟩
  · rw [ht]
    exact List.length_take_le _ _
  · rw [ht]
    rfl
  · intro h
    rw [ht]
    show mkNewVersion now content label versions
        :: versions.take (MAX_VERSIONS - 1) = _
    rw [List.take_of_length_le (by simp only [MAX_VERSIONS] at *; omega)]
    rfl
  · intro h
    rw [ht]
    show mkNewVersion now content label versions
        :: versions.take (MAX_VERSIONS - 1) = _
    rw [List.dropLast_eq_take, h]
    rfl

/-- A dummy stored version for the C7 witness. -/
def c7V : Version :=
  { id := 0, content := [], label := [], timestamp := 0, wordCount := 0 }

/-- A full five-version ledger for the C7 witness. -/
def c7Vs : List Version := [c7V, c7V, c7V, c7V, c7V]

theorem c7_witness :
    (saveVersion 7 c7Vs [] []).1
        = (saveVersion 7 c7Vs [] []).2 :: c7Vs.dropLast
    ∧ (saveVersion 7 c7Vs [] []).1.length ≤ MAX_VERSIONS :=
  ⟨(c7_version_ledger_bound 7 c7Vs [] []).2.2.2.2 (by decide),
   (c7_version_ledger_bound 7 c7Vs [] []).2.1⟩

/-! ## Transform pipeline (`prepareDocument` requests, lines 367–423,
and `handlePrepareDocument`, lines 501–550) -/

/-- Oracle for one `fetch('/api/claude')` round trip followed by
response handling: given the request number and the text sent, returns
the assistant text (the joined `data.content` pieces) or the thrown
error message. -/
abbrev ServiceOracle := Nat → List Char → Except (List Char) (List Char)

/-- Sequential per-chunk requests of `prepareDocument` (lines 394–420):
chunk `i` is sent as request `i`; each response is trimmed and
collected in order; the first failing request aborts the whole loop
with its error, returning no partial result. -/
def processChunksSeq (svc : ServiceOracle) :
    Nat → List (List Char) → Except (List Char) (List (List Char))
  | _, [] => Except.ok []
  | i, c :: rest =>
    match svc i c with
    | Except.error e => Except.error e
    | Except.ok r =>
      match processChunksSeq svc (i + 1) rest with
      | Except.error e => Except.error e
      | Except.ok rs => Except.ok (jsTrim r :: rs)

/-- Embedding of `prepareDocument` (lines 343–423): chunk the document
with the 1500-word budget; a single chunk issues one request carrying
the whole original text (line 379); multiple chunks are processed
sequentially and the trimmed responses joined with a blank line
(line 422). -/
def prepareDocument (svc : ServiceOracle) (text : List Char) :
    Except (List Char) (List Char) :=
  if (prepareChunks MAX_WORDS_PER_CHUNK text).length = 1 then
    (svc 0 text).map jsTrim
  else
    (processChunksSeq svc 0 (prepareChunks MAX_WORDS_PER_CHUNK text)).map
      (List.intercalate nn)

/-- Embedding of `handlePrepareDocument` (lines 501–550): snapshot the
current content into the Version Ledger, run the transform, and replace
the content only on success; on failure (`catch`) the content is left
untouched and the error message is surfaced. -/
def handlePrepareDocument (now : Nat) (svc : ServiceOracle)
    (content : List Char) (versions : List Version) :
    List Char × List Version × Option (List Char) :=
  let versions2 := (saveVersion now versions content
      "Before preparation".toList).1
  match prepareDocument svc content with
  | Except.ok t => (t, versions2, none)
  | Except.error e => (content, versions2, some e)

theorem processChunksSeq_first_error (svc : ServiceOracle)
    (chunks : List (List Char)) :
    ∀ (k i : Nat) (e : List Char), i < chunks.length →
      (∀ j, j < i → (svc (k + j) (chunks.getD j [])).isOk = true) →
      svc (k + i) (chunks.getD i []) = Except.error e →
      processChunksSeq svc k chunks = Except.error e := by
  induction chunks with
  | nil =>
    intro k i e hi
    exact absurd hi (by simp)
  | cons c rest ih =>
    intro k i e hi hok hfail
    cases i with
    | zero =>
      have hc : svc k c = Except.error e := by simpa using hfail
      rw [processChunksSeq, hc]
    | succ n =>
      have h0 : (svc k c).isOk = true := by
        simpa using hok 0 (by omega)
      obtain ⟨r, hr⟩ : ∃ r, svc k c = Except.ok r := by
        cases hsvc : svc k c with
        | error e2 =>
          rw [hsvc] at h0
          simp [Except.isOk, Except.toBool] at h0
        | ok r => exact ⟨r, rfl⟩
      have hrec : processChunksSeq svc (k + 1) rest = Except.error e := by
        refine ih (k + 1) n e (by simpa using hi) ?_ ?_
        · intro j hj
          have hjj := hok (j + 1) (by omega)
          have harith : k + (j + 1) = k + 1 + j := by omega
          rw [harith] at hjj
          simpa using hjj
        · have harith : k + (n + 1) = k + 1 + n := by omega
          rw [harith] at hfail
          simpa using hfail
      rw [processChunksSeq, hr, hrec]

/-! ## Claim C8 -/

/-- C8: the transform is all-or-nothing.  Any failure of
`prepareDocument` leaves the handler's document content exactly as it
was and surfaces the error; in the multi-chunk loop the first failing
segment request aborts the whole sequence with that failure and no
partial result; a multi-chunk run is exactly the sequential loop and a
single-chunk run is exactly one request. -/
theorem c8_prepare_all_or_nothing (now : Nat) (svc : ServiceOracle)
    (content : List Char) (versions : List Version) :
    (∀ e, prepareDocument svc content = Except.error e →
        (handlePrepareDocument now svc content versions).1 = content
        ∧ (handlePrepareDocument now svc content versions).2.2 = some e)
    ∧ (∀ (chunks : List (List Char)) (i : Nat) (e : List Char),
        i < chunks.length →
        (∀ j, j < i → (svc j (chunks.getD j [])).isOk = true) →
        svc i (chunks.getD i []) = Except.error e →
        processChunksSeq svc 0 chunks = Except.error e)
    ∧ ((prepareChunks MAX_WORDS_PER_CHUNK content).length ≠ 1 →
        prepareDocument svc content
          = (processChunksSeq svc 0
              (prepareChunks MAX_WORDS_PER_CHUNK content)).map
              (List.intercalate nn))
    ∧ ((prepareChunks MAX_WORDS_PER_CHUNK content).length = 1 →
        prepareDocument svc content = (svc 0 content).map jsTrim) := by
  refine ⟨?_, ?_, ?_, ?_⟩
  · intro e he
    simp [handlePrepareDocument, he]
  · intro chunks i e hi hok hfail
    exact processChunksSeq_first_error svc chunks 0 i e hi
      (fun j hj => by simpa using hok j hj) (by simpa using hfail)
  · intro h
    rw [prepareDocument, if_neg h]
  · intro h
    rw [prepareDocument, if_pos h]

/-- Oracle for the C8 witness whose second request fails. -/
def c8Svc : ServiceOracle := fun i _ =>
  if i = 0 then Except.ok "r".toList else Except.error "boom".toList

/-- Oracle for the C8 witness that always fails. -/
def c8FailSvc : ServiceOracle := fun _ _ => Except.error "x".toList

theorem c8_witness :
    ((handlePrepareDocument 3 c8FailSvc "a".toList []).1 = "a".toList
      ∧ (handlePrepareDocument 3 c8FailSvc "a".toList []).2.2
          = some "x".toList)
    ∧ processChunksSeq c8Svc 0 [['a'], ['b']]
        = Except.error "boom".toList :=
  ⟨(c8_prepare_all_or_nothing 3 c8FailSvc "a".toList []).1 "x".toList
      (by rfl),
   (c8_prepare_all_or_nothing 3 c8Svc "a".toList []).2.1 [['a'], ['b']] 1
      "boom".toList (by decide) (by decide) (by rfl)⟩

/-! ## Persistence Gateway (`STORAGE_KEYS`, `storage.clearAll`,
`VERSION_KEY`, lines 6–11, 107–117, 157) -/

/-- The browser `localStorage`, modelled as an association list with
unique keys; only key lookup and removal matter here. -/
abbrev Store := List (String × String)

/-- Source constant `STORAGE_KEYS` (lines 6–11): content, chat history,
preferences and last-saved timestamp. -/
def STORAGE_KEYS : List String :=
  ["wop_editor_content", "wop_chat_history", "wop_preferences",
   "wop_last_saved"]

/-- Source constant `VERSION_KEY` (line 157), under which the Version
Ledger is stored. -/
def VERSION_KEY : String := "wop_versions"

/-- Embedding of `localStorage.removeItem(key)`. -/
def removeItem (key : String) (st : Store) : Store :=
  st.filter (fun kv => kv.1 != key)

/-- Embedding of `localStorage.getItem(key)` (`none` is JavaScript
`null`). -/
def getItem (key : String) (st : Store) : Option String :=
  (st.find? (fun kv => kv.1 == key)).map (fun kv => kv.2)

/-- Embedding of `storage.clearAll` (lines 107–117):
`Object.values(STORAGE_KEYS).forEach(key => localStorage.removeItem(key))`. -/
def clearAll (st : Store) : Store :=
  STORAGE_KEYS.foldl (fun s k => removeItem k s) st


theorem getItem_cons (k : String) (kv : String × String) (rest : Store) :
    getItem k (kv :: rest)
      = if kv.1 = k then some kv.2 else getItem k rest := by
  simp only [getItem, List.find?_cons]
  by_cases h : kv.1 = k
  · rw [if_pos h, show (kv.1 == k) = true from beq_iff_eq.mpr h]
    rfl
  · rw [if_neg h, show (kv.1 == k) = false from beq_eq_false_iff_ne.mpr h]

theorem removeItem_cons (key : String) (kv : String × String)
    (rest : Store) :
    removeItem key (kv :: rest)
      = if kv.1 = key then removeItem key rest
        else kv :: removeItem key rest := by
  simp only [removeItem, List.filter_cons]
  by_cases h : kv.1 = key
  · simp [h]
  · simp [h]

theorem getItem_removeItem (k key : String) (st : Store) :
    getItem k (removeItem key st)
      = if k = key then none else getItem k st := by
  induction st with
  | nil => by_cases h : k = key <;> simp [getItem, removeItem, h]
  | cons kv rest ih =>
    rw [removeItem_cons]
    by_cases hkv : kv.1 = key
    · rw [if_pos hkv, ih, getItem_cons]
      by_cases hk : k = key
      · simp [hk]
      · have hne : kv.1 ≠ k := by
          rw [hkv]
          intro hh
          exact hk hh.symm
        simp [hk, hne]
    · rw [if_neg hkv, getItem_cons, getItem_cons]
      by_cases hkvk : kv.1 = k
      · have hk : k ≠ key := by
          intro hh
          exact hkv (hkvk.trans hh)
        simp [hkvk, hk]
      · rw [if_neg hkvk, if_neg hkvk, ih]

/-! ## Claim C10 -/

/-- C10: `clearAll` removes exactly the content, chat-history,
preferences and last-saved keys: the version ledger key (and any key
outside `STORAGE_KEYS`) maps to the same value afterwards, every key of
`STORAGE_KEYS` maps to nothing afterwards, and `VERSION_KEY` is not
among the cleared keys — saved versions survive a clear-all. -/
theorem c10_clearAll_frame (st : Store) :
    getItem VERSION_KEY (clearAll st) = getItem VERSION_KEY st
    ∧ (∀ k ∈ STORAGE_KEYS, getItem k (clearAll st) = none)
    ∧ (∀ k, k ∉ STORAGE_KEYS → getItem k (clearAll st) = getItem k st)
    ∧ VERSION_KEY ∉ STORAGE_KEYS := by
  have hcl : clearAll st
      = removeItem "wop_last_saved" (removeItem "wop_preferences"
          (removeItem "wop_chat_history"
            (removeItem "wop_editor_content" st))) := rfl
  refine ⟨?_, ?_, ?_, by decide⟩
  · rw [hcl, getItem_removeItem, if_neg (by decide), getItem_removeItem,
      if_neg (by decide), getItem_removeItem, if_neg (by decide),
      getItem_removeItem, if_neg (by decide)]
  · intro k hk
    simp only [STORAGE_KEYS, List.mem_cons, List.not_mem_nil,
      or_false] at hk
    rcases hk with rfl | rfl | rfl | rfl
    · rw [hcl, getItem_removeItem, if_neg (by decide), getItem_removeItem,
        if_neg (by decide), getItem_removeItem, if_neg (by decide),
        getItem_removeItem, if_pos (by decide)]
    · rw [hcl, getItem_removeItem, if_neg (by decide), getItem_removeItem,
        if_neg (by decide), getItem_removeItem, if_pos (by decide)]
    · rw [hcl, getItem_removeItem, if_neg (by decide), getItem_removeItem,
        if_pos (by decide)]
    · rw [hcl, getItem_removeItem, if_pos (by decide)]
  · intro k hk
    simp only [STORAGE_KEYS, List.mem_cons, List.not_mem_nil, or_false,
      not_or] at hk
    obtain ⟨h1, h2, h3, h4⟩ := hk
    rw [hcl, getItem_removeItem, if_neg h4, getItem_removeItem, if_neg h3,
      getItem_removeItem, if_neg h2, getItem_removeItem, if_neg h1]

/-- A concrete store for the C10 witness, holding a saved version list,
one cleared key and one unrelated key. -/
def c10Store : Store :=
  [(VERSION_KEY, "vs"), ("wop_editor_content", "c"), ("other", "o")]

theorem c10_witness :
    getItem VERSION_KEY (clearAll c10Store) = getItem VERSION_KEY c10Store
    ∧ getItem "wop_editor_content" (clearAll c10Store) = none
    ∧ getItem "other" (clearAll c10Store) = getItem "other" c10Store :=
  ⟨(c10_clearAll_frame c10Store).1,
   (c10_clearAll_frame c10Store).2.1 "wop_editor_content" (by decide),
   (c10_clearAll_frame c10Store).2.2.1 "other" (by decide)⟩
